import Mathlib

/-!
Shallow embedding of `lru.go` from PSUdaemon/httpcache: a size-bounded
in-memory LRU cache of HTTP responses with a secondary "stale" overlay and a
header-only revalidation path (`Freshen`).

Machine integers are modelled as `Int`/`Nat`; Go's `http.Header` as an
association list of header name to value list; Go's nil-vs-initialized map
distinction for the `stale` field is kept explicitly as an `Option`, because
the source constructor `NewLRUCache` leaves `stale` as a nil map and Go
panics on assignment to a nil map.  Results of operations that can panic are
wrapped in `GoResult`.
-/

/-- Faithful model of Go `strconv.ParseInt(s, 10, 64)`: optional sign, at
least one decimal digit, nothing else, and the value must fit in int64;
`none` models a non-nil error. -/
def parseGoInt64 (s : String) : Option Int :=
  let cs := s.toList
  let signDigits : Bool × List Char :=
    match cs with
    | '-' :: rest => (true, rest)
    | '+' :: rest => (false, rest)
    | _ => (false, cs)
  let ds := signDigits.2
  if ds.isEmpty then none
  else if ds.all Char.isDigit then
    let n : Nat := ds.foldl (fun a c => 10 * a + (c.toNat - 48)) 0
    let v : Int := if signDigits.1 then -(n : Int) else (n : Int)
    if -(2 ^ 63) ≤ v ∧ v ≤ 2 ^ 63 - 1 then some v else none
  else none

/-- Go `http.Header`: header name to list of values. An association list can
carry a name twice; all operations below treat it as the union. -/
abbrev HttpHeader := List (String × List String)

/-- All values stored under `name` (`http.Header` values slice). -/
def headerGetAll (h : HttpHeader) (name : String) : List String :=
  ((h.filter (fun p => p.1 == name)).map (fun p => p.2)).flatten

/-- Go `http.Header.Get`: first value under `name`, or `""` when absent. -/
def headerGet (h : HttpHeader) (name : String) : String :=
  match headerGetAll h name with
  | [] => ""
  | v :: _ => v

/-- Modelled from the spec: `headersEqual` (defined outside `lru.go`) compares
two header maps by semantic equality of header name to value-list, not by
entry order. -/
def headersEqual (h1 h2 : HttpHeader) : Bool :=
  (h1 ++ h2).all (fun p => headerGetAll h1 p.1 == headerGetAll h2 p.1)

/-- `CacheObj` from the source: body bytes, headers, status code. -/
structure CacheObj where
  body : List Nat
  headers : HttpHeader
  code : Int
  deriving DecidableEq, Repr

/-- `CacheObj.Size`: the body length (headers deliberately excluded). -/
def CacheObj.Size (c : CacheObj) : Nat := c.body.length

/-- One entry of the eviction store: key, value and the weight it was
inserted with. -/
abbrev StoreEntry := String × CacheObj × Nat

/-- Modelled from the spec: the Eviction Store (the external
`hashicorp/golang-lru` collaborator) is a key-value structure holding a
recency list (front = most recently used) with a byte capacity. -/
structure EvictionStore where
  entries : List StoreEntry
  capacity : Nat
  deriving DecidableEq, Repr

/-- Total weight currently resident. -/
def totalW (l : List StoreEntry) : Nat := (l.map (fun e => e.2.2)).sum

/-- Drop elements from the front (the least recent end, once reversed) while
the total weight exceeds the capacity. -/
def trimFront (cap : Nat) : List StoreEntry → List StoreEntry
  | [] => []
  | e :: rest => if totalW (e :: rest) ≤ cap then e :: rest else trimFront cap rest

/-- Modelled from the spec: `AddSize` inserts `(k, v)` with weight `w` as most
recent (replacing any entry under `k`) and then evicts least-recently-used
entries while the total weight exceeds the capacity. -/
def EvictionStore.addSize (es : EvictionStore) (k : String) (v : CacheObj) (w : Nat) : EvictionStore :=
  { es with entries := (trimFront es.capacity (((k, v, w) :: es.entries.filter (fun e => e.1 != k)).reverse)).reverse }

/-- Internal lookup of the full entry stored under `k`. -/
def EvictionStore.findEntry (es : EvictionStore) (k : String) : Option StoreEntry :=
  es.entries.find? (fun e => e.1 == k)

/-- Value and weight stored under `k`, ignoring recency effects. -/
def evLookup (es : EvictionStore) (k : String) : Option (CacheObj × Nat) :=
  (es.findEntry k).map (fun e => e.2)

/-- Modelled from the spec: `Get` returns the value under `k` and, on a hit,
moves the entry to the most-recent position. -/
def EvictionStore.get (es : EvictionStore) (k : String) : Option (CacheObj × Nat) × EvictionStore :=
  match es.findEntry k with
  | none => (none, es)
  | some e => (some e.2, { es with entries := e :: es.entries.filter (fun x => x.1 != k) })

/-- The stale overlay content: key to invalidation timestamp. -/
abbrev StaleMap := List (String × Int)

/-- Lookup in the possibly-nil (`none`) stale map; reading a nil Go map
yields the zero value with `ok = false`. -/
def staleLookup : Option StaleMap → String → Option Int
  | none, _ => none
  | some m, k => (m.find? (fun p => p.1 == k)).map (fun p => p.2)

/-- Go `delete` on the possibly-nil stale map: a no-op on a nil map. -/
def staleDelete : Option StaleMap → String → Option StaleMap
  | none, _ => none
  | some m, k => some (m.filter (fun p => p.1 != k))

/-- Insert-or-replace in the stale map content. -/
def staleInsert : StaleMap → String → Int → StaleMap
  | [], k, t => [(k, t)]
  | p :: rest, k, t => if p.1 == k then (k, t) :: rest else p :: staleInsert rest k t

/-- Outcome of a Go computation that may panic instead of returning. -/
inductive GoResult (α : Type) where
  | ok : α → GoResult α
  | panic : String → GoResult α
  deriving DecidableEq, Repr

/-- Go map assignment `m[k] = t` on the possibly-nil stale map: assignment to
a nil map is a runtime panic. -/
def staleSet : Option StaleMap → String → Int → GoResult (Option StaleMap)
  | none, _, _ => .panic "assignment to entry in nil map"
  | some m, k, t => .ok (some (staleInsert m k t))

/-- `lruCache` from the source: the eviction store plus the stale overlay.
`stale = none` models the nil Go map. -/
structure lruCache where
  cache : EvictionStore
  stale : Option StaleMap
  deriving DecidableEq, Repr

/-- `ErrNotFoundInCache` (declared elsewhere in the repository). -/
def ErrNotFoundInCache : String := "not found in cache"

/-- `NewLRUCache`: builds the eviction store with the given byte capacity.
The error condition of the external `lru.NewLargeWithEvict` is modelled from
the spec as rejecting an invalid (zero) capacity.  Note that, as in the
source, the `stale` field is left as the nil map. -/
def NewLRUCache (sizeBytes : Nat) : Except String lruCache :=
  if sizeBytes = 0 then .error "must provide a positive size"
  else .ok { cache := { entries := [], capacity := sizeBytes }, stale := none }

/-- The `Header` value returned by `lruCache.Header`: headers plus status. -/
structure Header where
  header : HttpHeader
  statusCode : Int
  deriving DecidableEq, Repr

/-- `lruCache.Header`: metadata-only lookup; the underlying `Get` updates
recency, so the (possibly) updated cache is returned alongside. -/
def lruCache.Header (c : lruCache) (key : String) : Except String Header × lruCache :=
  match c.cache.get key with
  | (none, es) => (.error ErrNotFoundInCache, { c with cache := es })
  | (some vw, es) => (.ok { header := vw.1.headers, statusCode := vw.1.code }, { c with cache := es })

/-- Modelled from the spec: the `Resource` passed into `Store`/`Freshen`
(defined outside `lru.go`) carries headers, a status code, and a readable
body.  `read n` is the outcome of the single `Read` into a buffer of `n`
bytes (bytes obtained, error); `readAll` is the outcome of draining the
body with `ioutil.ReadAll`. -/
structure InResource where
  headers : HttpHeader
  statusCode : Int
  read : Nat → List Nat × Option String
  readAll : Except String (List Nat)

/-- Outcome of the body-reading phase of `Store` (source lines 58-70). -/
inductive ReadBodyResult where
  | ok : List Nat → ReadBodyResult
  | fail : String → ReadBodyResult
  | shortRead : ReadBodyResult
  | lenPanic : ReadBodyResult
  deriving DecidableEq, Repr

/-- Body-reading phase of `Store`.  With a parseable `Content-Length`, a
buffer of that many bytes is allocated (a negative length makes `make`
panic) and read once; a read error is propagated; a read of the wrong
length hits `return err` at a point where `err` is provably nil — the
`shortRead` outcome, on which `Store` returns a nil error and stores
nothing.  Without a parseable `Content-Length`, the body is drained with
`ReadAll` and its error propagated. -/
def readFullBody (r : InResource) : ReadBodyResult :=
  match parseGoInt64 (headerGet r.headers "Content-Length") with
  | some L =>
    if L < 0 then .lenPanic
    else
      let out := r.read L.toNat
      match out.2 with
      | some e => .fail e
      | none => if (out.1.length : Int) = L then .ok out.1 else .shortRead
  | none =>
    match r.readAll with
    | .error e => .fail e
    | .ok bs => .ok bs

/-- The per-key loop of `Store`: for each key, delete it from the stale
overlay and insert the value into the eviction store weighted by its size. -/
def storeLoop (val : CacheObj) : lruCache → List String → lruCache
  | c, [] => c
  | c, k :: ks =>
      storeLoop val { stale := staleDelete c.stale k, cache := c.cache.addSize k val val.Size } ks

/-- `lruCache.Store`: read the body once, then store the resulting entry
under every key.  The result is `(returned error, cache state)`. -/
def lruCache.Store (c : lruCache) (r : InResource) (keys : List String) : GoResult (Option String × lruCache) :=
  match readFullBody r with
  | .lenPanic => .panic "makeslice: len out of range"
  | .fail e => .ok (some e, c)
  | .shortRead => .ok (none, c)
  | .ok bytes =>
    let val : CacheObj := { body := bytes, headers := r.headers, code := r.statusCode }
    .ok (none, storeLoop val c keys)

/-- Modelled from the spec: the reconstructed resource returned by
`Retrieve` — status, body, headers and the stale flag callers may inspect. -/
structure Resource where
  code : Int
  body : List Nat
  headers : HttpHeader
  stale : Bool
  deriving DecidableEq, Repr

/-- Modelled from the spec: `NewResourceBytes` rebuilds a resource from the
stored parts; the stale flag starts unset. -/
def NewResourceBytes (code : Int) (body : List Nat) (headers : HttpHeader) : Resource :=
  { code := code, body := body, headers := headers, stale := false }

/-- Modelled from the spec: the resource's effective date, taken from its
`Date` header (dates are modelled as integer timestamps). -/
def effectiveDate (h : HttpHeader) : Option Int := parseGoInt64 (headerGet h "Date")

/-- Modelled from the spec: `res.DateAfter(t)` holds when the resource's
effective date is strictly after `t`; a resource without a parseable date is
never "after". -/
def Resource.DateAfter (r : Resource) (t : Int) : Bool :=
  match effectiveDate r.headers with
  | some d => t < d
  | none => false

/-- Modelled from the spec: `MarkStale` sets the stale flag. -/
def Resource.MarkStale (r : Resource) : Resource := { r with stale := true }

/-- The stale-overlay check of `Retrieve` (source lines 103-108): when the
overlay holds the key and the resource's date is not strictly after the
recorded timestamp, the resource is marked stale. -/
def applyStale (s : Option StaleMap) (key : String) (r : Resource) : Resource :=
  match staleLookup s key with
  | some t => if r.DateAfter t then r else r.MarkStale
  | none => r

/-- `lruCache.Retrieve`: look the key up (recency updated on hit), rebuild
the resource, and mark it stale when the stale overlay holds the key with a
timestamp not strictly before the resource's effective date.  The overlay
itself is not modified. -/
def lruCache.Retrieve (c : lruCache) (key : String) : Except String (Resource × lruCache) :=
  match c.cache.get key with
  | (none, _) => .error ErrNotFoundInCache
  | (some vw, es) =>
    .ok (applyStale c.stale key (NewResourceBytes vw.1.code vw.1.body vw.1.headers),
      { c with cache := es })

/-- `lruCache.updateHeader`: replace headers and status of an existing
entry, re-inserting it with weight recomputed from the unchanged body. -/
def lruCache.updateHeader (c : lruCache) (key : String) (headers : HttpHeader) (code : Int) : Except String lruCache :=
  match c.cache.get key with
  | (none, _) => .error ErrNotFoundInCache
  | (some vw, es) =>
    let val := { vw.1 with headers := headers, code := code }
    .ok { c with cache := es.addSize key val val.Size }

/-- `lruCache.Invalidate`: record `now` in the stale overlay for every key
(`Clock()` is passed in as `now`).  Writing to the nil overlay map panics. -/
def lruCache.Invalidate : lruCache → List String → Int → GoResult lruCache
  | c, [], _ => .ok c
  | c, k :: ks, now =>
    match staleSet c.stale k now with
    | .panic m => .panic m
    | .ok s => lruCache.Invalidate { c with stale := s } ks now

/-- `lruCache.Freshen`: per key, fetch the stored header; on a miss skip the
key; on a status-and-headers match refresh the metadata via `updateHeader`
(propagating its error); on a mismatch invalidate the key. -/
def lruCache.Freshen : lruCache → InResource → Int → List String → GoResult (Option String × lruCache)
  | c, _, _, [] => .ok (none, c)
  | c, res, now, k :: ks =>
    match c.Header k with
    | (.error _, c1) => lruCache.Freshen c1 res now ks
    | (.ok h, c1) =>
      if h.statusCode == res.statusCode && headersEqual h.header res.headers then
        match c1.updateHeader k res.headers h.statusCode with
        | .error e => .ok (some e, c1)
        | .ok c2 => lruCache.Freshen c2 res now ks
      else
        match c1.Invalidate [k] now with
        | .panic m => .panic m
        | .ok c2 => lruCache.Freshen c2 res now ks

/-- Trace predicate mirroring `Freshen`: does some `updateHeader` call made
during the run fail? -/
def freshenUHFails : lruCache → InResource → Int → List String → Bool
  | _, _, _, [] => false
  | c, res, now, k :: ks =>
    match c.Header k with
    | (.error _, c1) => freshenUHFails c1 res now ks
    | (.ok h, c1) =>
      if h.statusCode == res.statusCode && headersEqual h.header res.headers then
        match c1.updateHeader k res.headers h.statusCode with
        | .error _ => true
        | .ok c2 => freshenUHFails c2 res now ks
      else
        match c1.Invalidate [k] now with
        | .panic _ => false
        | .ok c2 => freshenUHFails c2 res now ks

/-- The stale flag the next `Retrieve` of `k` would report, if any. -/
def retrieveStaleFlag (c : lruCache) (k : String) : Option Bool :=
  match c.Retrieve k with
  | .ok (r, _) => some r.stale
  | .error _ => none

/-! ### Concrete instances used for evaluations and witnesses -/

/-- Empty cache of capacity 100, as produced by `NewLRUCache 100`. -/
def c1Cache : lruCache := { cache := { entries := [], capacity := 100 }, stale := none }

/-- A resource declaring `Content-Length: 10` whose single read yields only
five bytes and no error. -/
def c1Res : InResource :=
  { headers := [("Content-Length", ["10"])], statusCode := 200,
    read := fun _ => ([1, 2, 3, 4, 5], none), readAll := .ok [] }

/-- A cached object with body `"hi"`, a `Date: 5` header and status 200. -/
def c3Obj : CacheObj := { body := [104, 105], headers := [("Date", ["5"])], code := 200 }

/-- A cache holding `c3Obj` under key `"k"`, whose stale overlay marks `"k"`
as invalidated at time 10 (after the entry's date 5). -/
def c3Cache : lruCache :=
  { cache := { entries := [("k", c3Obj, 2)], capacity := 100 }, stale := some [("k", 10)] }

/-- A candidate revalidation resource whose status code and header set equal
the cached ones. -/
def c3Res : InResource :=
  { headers := [("Date", ["5"])], statusCode := 200,
    read := fun _ => ([], none), readAll := .ok [] }

/-- The stale flag the next Retrieve of `"k"` reports after the matching
Freshen of `c3Cache` with `c3Res` at time 20. -/
def c3FlagAfterFreshen : Option Bool :=
  match lruCache.Freshen c3Cache c3Res 20 ["k"] with
  | .ok (none, c2) => retrieveStaleFlag c2 "k"
  | _ => none

/-- A cache with a stale-overlay entry for `"x"` and an empty eviction store. -/
def cW4 : lruCache := { cache := { entries := [], capacity := 100 }, stale := some [("x", 3)] }

/-- A resource declaring `Content-Length: 2` whose read yields exactly two
bytes without error. -/
def rW4 : InResource :=
  { headers := [("Content-Length", ["2"]), ("ETag", ["a"])], statusCode := 200,
    read := fun _ => ([7, 8], none), readAll := .ok [] }

/-- The cache state after `Store cW4 rW4 ["x"]`. -/
def cW4res : lruCache :=
  ⟨⟨[("x", ⟨[7, 8], [("Content-Length", ["2"]), ("ETag", ["a"])], 200⟩, 2)], 100⟩, some []⟩

/-- Same eviction store contents as `c3Cache` but a nil stale overlay. -/
def c8Cache : lruCache :=
  { cache := { entries := [("k", c3Obj, 2)], capacity := 100 }, stale := none }

/-- A resource declaring `Content-Length: 2` whose single read fails. -/
def rFail : InResource :=
  { headers := [("Content-Length", ["2"])], statusCode := 200,
    read := fun _ => ([], some "read failed"), readAll := .ok [] }

/-! ### Lemmas about the eviction store -/

theorem trimFront_concat (cap : Nat) (e : StoreEntry) (he : e.2.2 ≤ cap) :
    ∀ xs : List StoreEntry, ∃ ys, trimFront cap (xs ++ [e]) = ys ++ [e] := by
  intro xs
  induction xs with
  | nil =>
    refine ⟨[], ?_⟩
    simp [trimFront, totalW, he]
  | cons x xs ih =>
    by_cases h : totalW (x :: (xs ++ [e])) ≤ cap
    · exact ⟨x :: xs, by simp [trimFront, h]⟩
    · obtain ⟨ys, hys⟩ := ih
      exact ⟨ys, by simp [trimFront, h, hys]⟩

theorem mem_trimFront (cap : Nat) (x : StoreEntry) :
    ∀ l : List StoreEntry, x ∈ trimFront cap l → x ∈ l := by
  intro l
  induction l with
  | nil => simp [trimFront]
  | cons e rest ih =>
    by_cases h : totalW (e :: rest) ≤ cap
    · simp [trimFront, h]
    · intro hx
      simp only [trimFront, h, if_false] at hx
      exact List.mem_cons_of_mem _ (ih hx)

theorem evLookup_addSize_self (es : EvictionStore) (k : String) (v : CacheObj) (w : Nat)
    (hw : w ≤ es.capacity) :
    evLookup (es.addSize k v w) k = some (v, w) := by
  obtain ⟨ys, hys⟩ := trimFront_concat es.capacity (k, v, w) hw
      ((es.entries.filter (fun e => e.1 != k)).reverse)
  simp only [evLookup, EvictionStore.findEntry, EvictionStore.addSize, List.reverse_cons, hys,
    List.reverse_append, List.reverse_cons, List.reverse_nil, List.nil_append, List.cons_append,
    List.reverse_reverse]
  rw [List.find?_cons_of_pos _ (by simp)]
  rfl

theorem mem_addSize (es : EvictionStore) (k : String) (v : CacheObj) (w : Nat) (x : StoreEntry)
    (hx : x ∈ (es.addSize k v w).entries) :
    x = (k, v, w) ∨ (x ∈ es.entries ∧ x.1 ≠ k) := by
  simp only [EvictionStore.addSize, List.mem_reverse] at hx
  have hx2 := mem_trimFront _ _ _ hx
  rw [List.mem_reverse] at hx2
  rcases List.mem_cons.1 hx2 with h | h
  · exact Or.inl h
  · rw [List.mem_filter] at h
    refine Or.inr ⟨h.1, ?_⟩
    simpa using h.2

theorem get_of_findEntry_none (es : EvictionStore) (k : String)
    (h : es.findEntry k = none) : es.get k = (none, es) := by
  simp [EvictionStore.get, h]

theorem get_of_findEntry_some (es : EvictionStore) (k : String) (e : StoreEntry)
    (h : es.findEntry k = some e) :
    es.get k = (some e.2, { es with entries := e :: es.entries.filter (fun x => x.1 != k) }) := by
  simp [EvictionStore.get, h]

theorem findEntry_key (es : EvictionStore) (k : String) (e : StoreEntry)
    (h : es.findEntry k = some e) : e.1 = k := by
  have := List.find?_some h
  simpa [beq_iff_eq] using this

theorem findEntry_after_get (es : EvictionStore) (k : String) (e : StoreEntry)
    (h : es.findEntry k = some e) :
    EvictionStore.findEntry { es with entries := e :: es.entries.filter (fun x => x.1 != k) } k
      = some e := by
  have hp := List.find?_some h
  simp only [EvictionStore.findEntry]
  exact List.find?_cons_of_pos _ hp

theorem capacity_addSize (es : EvictionStore) (k : String) (v : CacheObj) (w : Nat) :
    (es.addSize k v w).capacity = es.capacity := rfl

/-! ### Lemmas about the stale overlay -/

theorem staleLookup_staleDelete (s : Option StaleMap) (k k' : String) :
    staleLookup (staleDelete s k') k = if k = k' then none else staleLookup s k := by
  cases s with
  | none => cases Decidable.em (k = k') <;> simp [staleDelete, staleLookup, *]
  | some m =>
    by_cases hk : k = k'
    · subst hk
      simp only [staleDelete, staleLookup, if_pos rfl]
      rw [List.find?_eq_none.2]
      · rfl
      · intro p hp
        rw [List.mem_filter] at hp
        simpa [beq_iff_eq] using hp.2
    · simp only [staleDelete, staleLookup, if_neg hk]
      congr 1
      induction m with
      | nil => rfl
      | cons p rest ih =>
        by_cases hpk : p.1 = k'
        · rw [List.filter_cons_of_neg (by simpa using hpk)]
          rw [List.find?_cons_of_neg _ (by simp [hpk, Ne.symm hk])]
          exact ih
        · rw [List.filter_cons_of_pos (by simpa using hpk)]
          by_cases hpkk : p.1 = k
          · rw [List.find?_cons_of_pos _ (by simpa using hpkk),
              List.find?_cons_of_pos _ (by simpa using hpkk)]
          · rw [List.find?_cons_of_neg _ (by simpa using hpkk),
              List.find?_cons_of_neg _ (by simpa using hpkk)]
            exact ih

theorem staleLookupL_staleInsert (m : StaleMap) (k k' : String) (t : Int) :
    (List.find? (fun p => p.1 == k) (staleInsert m k' t)).map (fun p => p.2)
      = if k = k' then some t
        else (List.find? (fun p => p.1 == k) m).map (fun p => p.2) := by
  induction m with
  | nil =>
    by_cases hk : k = k'
    · simp [staleInsert, List.find?, hk]
    · rw [show staleInsert [] k' t = [(k', t)] from rfl,
        List.find?_cons_of_neg _ (by simpa using Ne.symm hk)]
      simp [hk]
  | cons p rest ih =>
    by_cases hpk : p.1 = k'
    · rw [show staleInsert (p :: rest) k' t = (k', t) :: rest by
        simp [staleInsert, hpk]]
      by_cases hk : k = k'
      · subst hk
        rw [List.find?_cons_of_pos _ (by simp), if_pos rfl]
        rfl
      · rw [List.find?_cons_of_neg _ (by simpa using Ne.symm hk), if_neg hk,
          List.find?_cons_of_neg _ (by simp [hpk, Ne.symm hk])]
    · rw [show staleInsert (p :: rest) k' t = p :: staleInsert rest k' t by
        simp [staleInsert, hpk]]
      by_cases hpkk : p.1 = k
      · have hk : ¬ k = k' := by
          intro h
          exact hpk (hpkk.trans h)
        rw [List.find?_cons_of_pos _ (by simpa using hpkk), if_neg hk,
          List.find?_cons_of_pos _ (by simpa using hpkk)]
      · rw [List.find?_cons_of_neg _ (by simpa using hpkk)]
        rw [ih]
        by_cases hk : k = k'
        · simp [hk]
        · rw [if_neg hk, if_neg hk, List.find?_cons_of_neg _ (by simpa using hpkk)]

theorem staleLookup_staleSet (s : Option StaleMap) (s' : Option StaleMap) (k k' : String) (t : Int)
    (h : staleSet s k' t = .ok s') :
    staleLookup s' k = if k = k' then some t else staleLookup s k := by
  cases s with
  | none => simp [staleSet] at h
  | some m =>
    simp only [staleSet, GoResult.ok.injEq] at h
    subst h
    simpa [staleLookup] using staleLookupL_staleInsert m k k' t

/-! ### Invariants threaded through the per-key loop of Store -/

/-- Every entry stored under `k` is exactly `val` with weight `val.Size`. -/
def onlyValAt (k : String) (val : CacheObj) (es : EvictionStore) : Prop :=
  ∀ e ∈ es.entries, e.1 = k → e = (k, val, val.Size)

theorem onlyValAt_addSize (es : EvictionStore) (k k' : String) (val : CacheObj)
    (h : k' = k ∨ onlyValAt k val es) :
    onlyValAt k val (es.addSize k' val val.Size) := by
  intro e he hek
  rcases mem_addSize es k' val val.Size e he with h1 | h1
  · have hk : k' = k := by rw [h1] at hek; exact hek
    rw [h1, hk]
  · rcases h with h | h
    · exact absurd (hek.trans h.symm) h1.2
    · exact h e h1.1 hek

theorem storeLoop_onlyVal_pres (val : CacheObj) (k : String) :
    ∀ ks : List String, ∀ c : lruCache,
      onlyValAt k val c.cache → onlyValAt k val (storeLoop val c ks).cache := by
  intro ks
  induction ks with
  | nil => intro c h; exact h
  | cons k' ks ih =>
    intro c h
    exact ih _ (onlyValAt_addSize _ _ _ _ (Or.inr h))

theorem storeLoop_onlyVal (val : CacheObj) (k : String) :
    ∀ ks : List String, ∀ c : lruCache,
      k ∈ ks → onlyValAt k val (storeLoop val c ks).cache := by
  intro ks
  induction ks with
  | nil => intro c h; exact absurd h (List.not_mem_nil k)
  | cons k' ks ih =>
    intro c h
    rcases List.mem_cons.1 h with h | h
    · exact storeLoop_onlyVal_pres val k ks _
        (onlyValAt_addSize _ _ _ _ (Or.inl h.symm))
    · exact ih _ h

theorem storeLoop_stale_pres (val : CacheObj) (k : String) :
    ∀ ks : List String, ∀ c : lruCache,
      staleLookup c.stale k = none → staleLookup (storeLoop val c ks).stale k = none := by
  intro ks
  induction ks with
  | nil => intro c h; exact h
  | cons k' ks ih =>
    intro c h
    refine ih _ ?_
    rw [show (⟨c.cache.addSize k' val val.Size, staleDelete c.stale k'⟩ : lruCache).stale
        = staleDelete c.stale k' from rfl]
    rw [staleLookup_staleDelete]
    by_cases hk : k = k' <;> simp [hk, h]

theorem storeLoop_stale (val : CacheObj) (k : String) :
    ∀ ks : List String, ∀ c : lruCache,
      k ∈ ks → staleLookup (storeLoop val c ks).stale k = none := by
  intro ks
  induction ks with
  | nil => intro c h; exact absurd h (List.not_mem_nil k)
  | cons k' ks ih =>
    intro c h
    rcases List.mem_cons.1 h with h | h
    · refine storeLoop_stale_pres val k ks _ ?_
      rw [show (⟨c.cache.addSize k' val val.Size, staleDelete c.stale k'⟩ : lruCache).stale
          = staleDelete c.stale k' from rfl]
      rw [staleLookup_staleDelete, if_pos h]
    · exact ih _ h

theorem evLookup_of_onlyValAt (es : EvictionStore) (k : String) (val v : CacheObj) (w : Nat)
    (h : onlyValAt k val es) (hl : evLookup es k = some (v, w)) :
    v = val ∧ w = val.Size := by
  simp only [evLookup, Option.map_eq_some'] at hl
  obtain ⟨e, he, hev⟩ := hl
  have hmem := List.mem_of_find?_eq_some he
  have hkey := findEntry_key es k e he
  have := h e hmem hkey
  rw [this] at hev
  exact ⟨(congrArg Prod.fst hev).symm, (congrArg Prod.snd hev).symm⟩

/-! ### Header-map equality lemmas -/

theorem headersEqual_getAll (h1 h2 : HttpHeader) (hq : headersEqual h1 h2 = true) (n : String) :
    headerGetAll h1 n = headerGetAll h2 n := by
  by_cases hex : ∃ p ∈ h1 ++ h2, p.1 = n
  · obtain ⟨p, hp, hpn⟩ := hex
    have hall := List.all_eq_true.1 hq p hp
    rw [hpn] at hall
    exact beq_iff_eq.1 hall
  · push_neg at hex
    have e1 : headerGetAll h1 n = [] := by
      unfold headerGetAll
      rw [List.filter_eq_nil_iff.2 ?_]
      · rfl
      · intro p hp
        simpa [beq_iff_eq] using hex p (List.mem_append_left _ hp)
    have e2 : headerGetAll h2 n = [] := by
      unfold headerGetAll
      rw [List.filter_eq_nil_iff.2 ?_]
      · rfl
      · intro p hp
        simpa [beq_iff_eq] using hex p (List.mem_append_right _ hp)
    rw [e1, e2]

theorem headersEqual_effectiveDate (h1 h2 : HttpHeader) (hq : headersEqual h1 h2 = true) :
    effectiveDate h1 = effectiveDate h2 := by
  unfold effectiveDate headerGet
  rw [headersEqual_getAll h1 h2 hq "Date"]

/-! ### Case-analysis lemmas for the cache operations -/

theorem header_of_findEntry_none (c : lruCache) (k : String)
    (h : c.cache.findEntry k = none) :
    c.Header k = (.error ErrNotFoundInCache, c) := by
  simp [lruCache.Header, get_of_findEntry_none _ _ h]

theorem header_of_findEntry_some (c : lruCache) (k : String) (e : StoreEntry)
    (h : c.cache.findEntry k = some e) :
    c.Header k = (.ok { header := e.2.1.headers, statusCode := e.2.1.code },
      { c with cache := { c.cache with entries := e :: c.cache.entries.filter (fun x => x.1 != k) } }) := by
  simp [lruCache.Header, get_of_findEntry_some _ _ _ h]

theorem updateHeader_of_findEntry_none (c : lruCache) (k : String) (hd : HttpHeader) (cd : Int)
    (h : c.cache.findEntry k = none) :
    c.updateHeader k hd cd = .error ErrNotFoundInCache := by
  simp [lruCache.updateHeader, get_of_findEntry_none _ _ h]

theorem updateHeader_of_findEntry_some (c : lruCache) (k : String) (hd : HttpHeader) (cd : Int)
    (e : StoreEntry) (h : c.cache.findEntry k = some e) :
    c.updateHeader k hd cd = .ok
      ⟨({ c.cache with entries := e :: c.cache.entries.filter (fun x => x.1 != k) }
          : EvictionStore).addSize k ⟨e.2.1.body, hd, cd⟩ e.2.1.body.length, c.stale⟩ := by
  simp [lruCache.updateHeader, get_of_findEntry_some _ _ _ h, CacheObj.Size]

theorem retrieve_of_findEntry_none (c : lruCache) (k : String)
    (h : c.cache.findEntry k = none) :
    c.Retrieve k = .error ErrNotFoundInCache := by
  simp [lruCache.Retrieve, get_of_findEntry_none _ _ h]

theorem retrieve_of_findEntry_some (c : lruCache) (k : String) (e : StoreEntry)
    (h : c.cache.findEntry k = some e) :
    c.Retrieve k = .ok (applyStale c.stale k (NewResourceBytes e.2.1.code e.2.1.body e.2.1.headers),
      { c with cache := { c.cache with entries := e :: c.cache.entries.filter (fun x => x.1 != k) } }) := by
  simp [lruCache.Retrieve, get_of_findEntry_some _ _ _ h]

theorem invalidate_single (c : lruCache) (k : String) (now : Int) :
    lruCache.Invalidate c [k] now =
      match staleSet c.stale k now with
      | .panic m => .panic m
      | .ok s => .ok { c with stale := s } := by
  cases hs : staleSet c.stale k now <;> simp [lruCache.Invalidate, hs]

theorem applyStale_code (s : Option StaleMap) (k : String) (r : Resource) :
    (applyStale s k r).code = r.code := by
  unfold applyStale
  cases staleLookup s k with
  | none => rfl
  | some t => by_cases hd : r.DateAfter t <;> simp [hd, Resource.MarkStale]

theorem applyStale_body (s : Option StaleMap) (k : String) (r : Resource) :
    (applyStale s k r).body = r.body := by
  unfold applyStale
  cases staleLookup s k with
  | none => rfl
  | some t => by_cases hd : r.DateAfter t <;> simp [hd, Resource.MarkStale]

theorem applyStale_headers (s : Option StaleMap) (k : String) (r : Resource) :
    (applyStale s k r).headers = r.headers := by
  unfold applyStale
  cases staleLookup s k with
  | none => rfl
  | some t => by_cases hd : r.DateAfter t <;> simp [hd, Resource.MarkStale]

theorem applyStale_stale_iff (s : Option StaleMap) (k : String) (r : Resource)
    (h : r.stale = false) :
    ((applyStale s k r).stale = true ↔ ∃ t, staleLookup s k = some t ∧ r.DateAfter t = false) := by
  unfold applyStale
  cases staleLookup s k with
  | none => simp [h]
  | some t =>
    by_cases hd : r.DateAfter t
    · simp [hd, h]
    · simp [hd, Resource.MarkStale, eq_false_of_ne_true hd]

theorem updateHeader_stale (c : lruCache) (k : String) (hd : HttpHeader) (cd : Int) (c' : lruCache)
    (h : c.updateHeader k hd cd = .ok c') : c'.stale = c.stale := by
  cases hf : c.cache.findEntry k with
  | none =>
    rw [updateHeader_of_findEntry_none _ _ _ _ hf] at h
    cases h
  | some e =>
    rw [updateHeader_of_findEntry_some _ _ _ _ _ hf] at h
    injection h with h
    rw [← h]

theorem header_snd_stale (c : lruCache) (k : String) : ((c.Header k).2).stale = c.stale := by
  cases hf : c.cache.findEntry k with
  | none => rw [header_of_findEntry_none _ _ hf]
  | some e => rw [header_of_findEntry_some _ _ _ hf]

theorem invalidate_stale_isSome : ∀ (ks : List String) (c : lruCache) (now : Int) (c' : lruCache),
    lruCache.Invalidate c ks now = .ok c' →
    ∀ k, (staleLookup c.stale k).isSome = true → (staleLookup c'.stale k).isSome = true := by
  intro ks
  induction ks with
  | nil =>
    intro c now c' h k hk
    injection h with h
    rw [← h]
    exact hk
  | cons k' ks ih =>
    intro c now c' h k hk
    simp only [lruCache.Invalidate] at h
    cases hs : staleSet c.stale k' now with
    | panic m => rw [hs] at h; cases h
    | ok s =>
      rw [hs] at h
      refine ih _ now c' h k ?_
      rw [show (⟨c.cache, s⟩ : lruCache).stale = s from rfl, staleLookup_staleSet _ _ _ _ _ hs]
      by_cases hkk : k = k' <;> simp [hkk, hk]

/-! ### Step lemmas for Freshen -/

theorem freshen_cons_of_none (c : lruCache) (res : InResource) (now : Int) (k : String)
    (ks : List String) (hf : c.cache.findEntry k = none) :
    lruCache.Freshen c res now (k :: ks) = lruCache.Freshen c res now ks := by
  simp only [lruCache.Freshen, header_of_findEntry_none _ _ hf]

theorem freshen_cons_of_match (c : lruCache) (res : InResource) (now : Int) (k : String)
    (ks : List String) (e : StoreEntry) (hf : c.cache.findEntry k = some e)
    (hc : (e.2.1.code == res.statusCode && headersEqual e.2.1.headers res.headers) = true) :
    ∃ c2 : lruCache,
      lruCache.Freshen c res now (k :: ks) = lruCache.Freshen c2 res now ks ∧
      c2.stale = c.stale ∧
      c2.cache.capacity = c.cache.capacity ∧
      (e.2.1.body.length ≤ c.cache.capacity →
        evLookup c2.cache k = some (⟨e.2.1.body, res.headers, e.2.1.code⟩, e.2.1.body.length)) := by
  have hmid : EvictionStore.findEntry
      { c.cache with entries := e :: c.cache.entries.filter (fun x => x.1 != k) } k = some e :=
    findEntry_after_get c.cache k e hf
  have hupd := updateHeader_of_findEntry_some
    ⟨{ c.cache with entries := e :: c.cache.entries.filter (fun x => x.1 != k) }, c.stale⟩
    k res.headers e.2.1.code e hmid
  refine ⟨⟨EvictionStore.addSize
      ⟨e :: List.filter (fun x => x.1 != k) (e :: List.filter (fun x => x.1 != k) c.cache.entries),
        c.cache.capacity⟩ k ⟨e.2.1.body, res.headers, e.2.1.code⟩ e.2.1.body.length, c.stale⟩,
    ?_, rfl, rfl, ?_⟩
  · simp [lruCache.Freshen, header_of_findEntry_some _ _ _ hf, hc, hupd]
  · intro hcap
    exact evLookup_addSize_self _ k _ _ hcap

theorem freshen_cons_of_mismatch_nil (c : lruCache) (res : InResource) (now : Int) (k : String)
    (ks : List String) (e : StoreEntry) (hf : c.cache.findEntry k = some e)
    (hc : (e.2.1.code == res.statusCode && headersEqual e.2.1.headers res.headers) = false)
    (hs : c.stale = none) :
    lruCache.Freshen c res now (k :: ks) = .panic "assignment to entry in nil map" := by
  simp only [lruCache.Freshen, header_of_findEntry_some _ _ _ hf, hc, invalidate_single,
    hs, staleSet]
  rw [if_neg (by simp)]

theorem freshen_cons_of_mismatch_some (c : lruCache) (res : InResource) (now : Int) (k : String)
    (ks : List String) (e : StoreEntry) (m : StaleMap) (hf : c.cache.findEntry k = some e)
    (hc : (e.2.1.code == res.statusCode && headersEqual e.2.1.headers res.headers) = false)
    (hs : c.stale = some m) :
    lruCache.Freshen c res now (k :: ks) =
      lruCache.Freshen
        ⟨{ c.cache with entries := e :: c.cache.entries.filter (fun x => x.1 != k) },
          some (staleInsert m k now)⟩ res now ks := by
  simp only [lruCache.Freshen, header_of_findEntry_some _ _ _ hf, hc, invalidate_single,
    hs, staleSet]
  rw [if_neg (by simp)]

theorem freshen_no_error : ∀ (ks : List String) (c : lruCache) (res : InResource) (now : Int)
    (e : String) (c' : lruCache), lruCache.Freshen c res now ks ≠ .ok (some e, c') := by
  intro ks
  induction ks with
  | nil =>
    intro c res now e c' h
    simp [lruCache.Freshen] at h
  | cons k ks ih =>
    intro c res now e c' h
    cases hf : c.cache.findEntry k with
    | none =>
      rw [freshen_cons_of_none _ _ _ _ _ hf] at h
      exact ih _ _ _ _ _ h
    | some en =>
      by_cases hc : (en.2.1.code == res.statusCode && headersEqual en.2.1.headers res.headers) = true
      · obtain ⟨c2, heq, _, _, _⟩ := freshen_cons_of_match c res now k ks en hf hc
        rw [heq] at h
        exact ih _ _ _ _ _ h
      · rw [Bool.not_eq_true] at hc
        cases hs : c.stale with
        | none =>
          rw [freshen_cons_of_mismatch_nil _ _ _ _ _ _ hf hc hs] at h
          cases h
        | some m =>
          rw [freshen_cons_of_mismatch_some _ _ _ _ _ _ _ hf hc hs] at h
          exact ih _ _ _ _ _ h

theorem freshenUHFails_false : ∀ (ks : List String) (c : lruCache) (res : InResource) (now : Int),
    freshenUHFails c res now ks = false := by
  intro ks
  induction ks with
  | nil => intro c res now; rfl
  | cons k ks ih =>
    intro c res now
    cases hf : c.cache.findEntry k with
    | none =>
      simp only [freshenUHFails, header_of_findEntry_none _ _ hf]
      exact ih _ _ _
    | some en =>
      have hmid := findEntry_after_get c.cache k en hf
      have hupd := updateHeader_of_findEntry_some
        ⟨{ c.cache with entries := en :: c.cache.entries.filter (fun x => x.1 != k) }, c.stale⟩
        k res.headers en.2.1.code en hmid
      by_cases hc : (en.2.1.code == res.statusCode && headersEqual en.2.1.headers res.headers) = true
      · simp [freshenUHFails, header_of_findEntry_some _ _ _ hf, hc, hupd, ih]
      · rw [Bool.not_eq_true] at hc
        cases hs : c.stale with
        | none =>
          simp [freshenUHFails, header_of_findEntry_some _ _ _ hf, hc, invalidate_single, hs,
            staleSet]
        | some m =>
          simp [freshenUHFails, header_of_findEntry_some _ _ _ hf, hc, invalidate_single, hs,
            staleSet, ih]

theorem freshen_stale_isSome : ∀ (ks : List String) (c : lruCache) (res : InResource) (now : Int)
    (r : Option String) (c' : lruCache),
    lruCache.Freshen c res now ks = .ok (r, c') →
    ∀ k, (staleLookup c.stale k).isSome = true → (staleLookup c'.stale k).isSome = true := by
  intro ks
  induction ks with
  | nil =>
    intro c res now r c' h k hk
    simp only [lruCache.Freshen] at h
    injection h with h
    have h2 : c = c' := congrArg Prod.snd h
    rw [← h2]
    exact hk
  | cons k' ks ih =>
    intro c res now r c' h k hk
    cases hf : c.cache.findEntry k' with
    | none =>
      rw [freshen_cons_of_none _ _ _ _ _ hf] at h
      exact ih _ _ _ _ _ h k hk
    | some en =>
      by_cases hc : (en.2.1.code == res.statusCode && headersEqual en.2.1.headers res.headers) = true
      · obtain ⟨c2, heq, hstale, _, _⟩ := freshen_cons_of_match c res now k' ks en hf hc
        rw [heq] at h
        refine ih _ _ _ _ _ h k ?_
        rw [hstale]
        exact hk
      · rw [Bool.not_eq_true] at hc
        cases hs : c.stale with
        | none =>
          rw [freshen_cons_of_mismatch_nil _ _ _ _ _ _ hf hc hs] at h
          cases h
        | some m =>
          rw [freshen_cons_of_mismatch_some _ _ _ _ _ _ _ hf hc hs] at h
          refine ih _ _ _ _ _ h k ?_
          rw [show (⟨{ c.cache with
              entries := en :: c.cache.entries.filter (fun x => x.1 != k') },
              some (staleInsert m k' now)⟩ : lruCache).stale = some (staleInsert m k' now)
            from rfl]
          rw [hs] at hk
          simp only [staleLookup] at hk ⊢
          rw [staleLookupL_staleInsert]
          by_cases hkk : k = k' <;> simp [hkk, hk]

/-! ### Remaining helper lemmas -/

theorem store_of_readFullBody_ok (c : lruCache) (r : InResource) (keys : List String)
    (bs : List Nat) (h : readFullBody r = .ok bs) :
    lruCache.Store c r keys = .ok (none, storeLoop ⟨bs, r.headers, r.statusCode⟩ c keys) := by
  simp [lruCache.Store, h]

theorem applyStale_of_none (s : Option StaleMap) (k : String) (r : Resource)
    (h : staleLookup s k = none) : applyStale s k r = r := by
  unfold applyStale
  rw [h]

theorem retrieve_snd_stale (c : lruCache) (key : String) (r : Resource) (c' : lruCache)
    (h : c.Retrieve key = .ok (r, c')) : c'.stale = c.stale := by
  cases hf : c.cache.findEntry key with
  | none =>
    rw [retrieve_of_findEntry_none _ _ hf] at h
    cases h
  | some e =>
    rw [retrieve_of_findEntry_some _ _ _ hf] at h
    injection h with h
    have h2 : _ = c' := congrArg Prod.snd h
    rw [← h2]

theorem retrieveStaleFlag_of_lookup (c : lruCache) (k : String) (v : CacheObj) (w : Nat)
    (hv : evLookup c.cache k = some (v, w)) :
    retrieveStaleFlag c k
      = some ((applyStale c.stale k (NewResourceBytes v.code v.body v.headers)).stale) := by
  simp only [evLookup] at hv
  obtain ⟨e, hfind, he2⟩ := Option.map_eq_some'.1 hv
  have he21 : e.2.1 = v := congrArg Prod.fst he2
  unfold retrieveStaleFlag
  rw [retrieve_of_findEntry_some _ _ _ hfind, he21]

theorem applyStale_of_some (s : Option StaleMap) (k : String) (r : Resource) (t : Int)
    (h : staleLookup s k = some t) :
    applyStale s k r = if r.DateAfter t then r else r.MarkStale := by
  unfold applyStale
  rw [h]

/-! ### Claim theorems -/

/-- C1: the claim says that when a parseable Content-Length of L bytes is
declared and the single body read yields fewer than L bytes without an I/O
error, Store returns a read error.  The code instead hits `return err` at a
point where `err` is nil: evaluating Store on such a resource shows it
returns a nil error and leaves the cache unchanged (nothing stored). -/
theorem store_short_read_returns_nil_error :
    lruCache.Store c1Cache c1Res ["x"] = .ok (none, c1Cache) := rfl

/-- C2: the claim says Invalidate on a freshly constructed cache records the
current time for each key and never fails or panics.  `NewLRUCache` leaves
the `stale` map nil, so the very first Invalidate write panics with
"assignment to entry in nil map". -/
theorem invalidate_on_new_cache_panics :
    NewLRUCache 100 = .ok c1Cache ∧
      lruCache.Invalidate c1Cache ["k"] 0 = .panic "assignment to entry in nil map" :=
  ⟨rfl, rfl⟩

/-- C3 (counterexample): a key in the stale state whose cached status code
and header set equal the candidate's is NOT reported fresh by the next
Retrieve after a matching Freshen: at this concrete input the match
hypotheses hold, the key was stale before the Freshen, and the stale flag
after the Freshen is still true — contradicting the claim that it becomes
false. -/
theorem freshen_match_key_still_stale_cex :
    c3Obj.code = c3Res.statusCode ∧
      headersEqual c3Obj.headers c3Res.headers = true ∧
      retrieveStaleFlag c3Cache "k" = some true ∧
      c3FlagAfterFreshen = some true :=
  ⟨rfl, rfl, rfl, rfl⟩

/-- C3 (amended): a Freshen whose candidate's status code and header set
equal the cached ones succeeds and updates the entry, but it does not remove
the Stale Overlay entry, and the next Retrieve reports the same stale flag
as before the Freshen (equal headers leave the effective date unchanged). -/
theorem freshen_match_stale_flag_unchanged (c : lruCache) (res : InResource) (now : Int)
    (k : String) (v : CacheObj) (w : Nat) (t : Int)
    (hv : evLookup c.cache k = some (v, w))
    (hst : staleLookup c.stale k = some t)
    (hcode : v.code = res.statusCode)
    (hh : headersEqual v.headers res.headers = true)
    (hcap : v.body.length ≤ c.cache.capacity) :
    ∃ c2, lruCache.Freshen c res now [k] = .ok (none, c2) ∧
      staleLookup c2.stale k = some t ∧
      retrieveStaleFlag c2 k = retrieveStaleFlag c k := by
  have hv0 := hv
  simp only [evLookup] at hv0
  obtain ⟨e, hfind, he2⟩ := Option.map_eq_some'.1 hv0
  have he21 : e.2.1 = v := congrArg Prod.fst he2
  have hc : (e.2.1.code == res.statusCode && headersEqual e.2.1.headers res.headers) = true := by
    rw [he21, hcode, hh]
    simp
  obtain ⟨c2, heq, hstale, hcapeq, hlookf⟩ := freshen_cons_of_match c res now k [] e hfind hc
  have hlook : evLookup c2.cache k = some (⟨v.body, res.headers, v.code⟩, v.body.length) := by
    have h0 := hlookf (by rw [he21]; exact hcap)
    rw [he21] at h0
    exact h0
  have hst2 : staleLookup c2.stale k = some t := by rw [hstale]; exact hst
  refine ⟨c2, ?_, hst2, ?_⟩
  · rw [heq]
    rfl
  · rw [retrieveStaleFlag_of_lookup c2 k ⟨v.body, res.headers, v.code⟩ v.body.length hlook,
      retrieveStaleFlag_of_lookup c k v w hv,
      applyStale_of_some _ _ _ _ hst2, applyStale_of_some _ _ _ _ hst]
    have hdate : (NewResourceBytes (⟨v.body, res.headers, v.code⟩ : CacheObj).code
        (⟨v.body, res.headers, v.code⟩ : CacheObj).body
        (⟨v.body, res.headers, v.code⟩ : CacheObj).headers).DateAfter t
        = (NewResourceBytes v.code v.body v.headers).DateAfter t := by
      unfold Resource.DateAfter
      rw [show effectiveDate (NewResourceBytes (⟨v.body, res.headers, v.code⟩ : CacheObj).code
          (⟨v.body, res.headers, v.code⟩ : CacheObj).body
          (⟨v.body, res.headers, v.code⟩ : CacheObj).headers).headers
          = effectiveDate res.headers from rfl]
      rw [show effectiveDate (NewResourceBytes v.code v.body v.headers).headers
          = effectiveDate v.headers from rfl]
      rw [headersEqual_effectiveDate v.headers res.headers hh]
    rw [hdate]
    cases hda : (NewResourceBytes v.code v.body v.headers).DateAfter t <;>
      simp [NewResourceBytes, Resource.MarkStale]

/-- C3 witness: the amended statement holds at the concrete stale cache. -/
theorem freshen_match_stale_flag_unchanged_witness :
    ∃ c2, lruCache.Freshen c3Cache c3Res 20 ["k"] = .ok (none, c2) ∧
      staleLookup c2.stale "k" = some 10 ∧
      retrieveStaleFlag c2 "k" = retrieveStaleFlag c3Cache "k" :=
  freshen_match_stale_flag_unchanged c3Cache c3Res 20 "k" c3Obj 2 10 rfl rfl rfl rfl
    (by decide)

/-- C4: a resource whose body was read in full and stored under key `k`
(entry still resident, no intervening operation) is retrieved with the same
status code, the same header map, a byte-identical body, and a false stale
flag. -/
theorem store_retrieve_roundtrip (c : lruCache) (r : InResource) (ks : List String)
    (k : String) (bs : List Nat) (c' : lruCache) (v : CacheObj) (w : Nat)
    (hread : readFullBody r = .ok bs)
    (hstore : lruCache.Store c r ks = .ok (none, c'))
    (hk : k ∈ ks)
    (hsurv : evLookup c'.cache k = some (v, w)) :
    v = ⟨bs, r.headers, r.statusCode⟩ ∧ w = bs.length ∧
    ∃ c'', c'.Retrieve k = .ok (⟨r.statusCode, bs, r.headers, false⟩, c'') := by
  rw [store_of_readFullBody_ok c r ks bs hread] at hstore
  injection hstore with hstore
  have hc' : storeLoop ⟨bs, r.headers, r.statusCode⟩ c ks = c' := congrArg Prod.snd hstore
  subst hc'
  have hov := storeLoop_onlyVal ⟨bs, r.headers, r.statusCode⟩ k ks c hk
  obtain ⟨hveq, hweq⟩ := evLookup_of_onlyValAt _ k _ v w hov hsurv
  have hstale := storeLoop_stale ⟨bs, r.headers, r.statusCode⟩ k ks c hk
  refine ⟨hveq, hweq, ?_⟩
  have hv0 := hsurv
  simp only [evLookup] at hv0
  obtain ⟨e, hfind, he2⟩ := Option.map_eq_some'.1 hv0
  have he21 : e.2.1 = v := congrArg Prod.fst he2
  exact ⟨_, by
    rw [retrieve_of_findEntry_some _ _ _ hfind, he21, hveq,
      applyStale_of_none _ _ _ hstale]
    rfl⟩

/-- C4 witness: the round trip at a concrete store of body `[7, 8]`. -/
theorem store_retrieve_roundtrip_witness :
    (⟨[7, 8], [("Content-Length", ["2"]), ("ETag", ["a"])], 200⟩ : CacheObj)
        = ⟨[7, 8], rW4.headers, rW4.statusCode⟩ ∧
      (2 : Nat) = ([7, 8] : List Nat).length ∧
      ∃ c'', cW4res.Retrieve "x" = .ok (⟨rW4.statusCode, [7, 8], rW4.headers, false⟩, c'') :=
  store_retrieve_roundtrip cW4 rW4 ["x"] "x" [7, 8] cW4res
    ⟨[7, 8], [("Content-Length", ["2"]), ("ETag", ["a"])], 200⟩ 2
    rfl rfl (by simp) rfl

/-- C5: for a key present in the store, Retrieve marks the returned resource
stale exactly when the key is in the Stale Overlay with a timestamp the
resource's effective date is not strictly after; the overlay is unchanged in
both cases; status, body and headers are returned as stored. -/
theorem retrieve_stale_iff (c : lruCache) (key : String) (v : CacheObj) (w : Nat)
    (hv : evLookup c.cache key = some (v, w)) :
    ∃ r c', c.Retrieve key = .ok (r, c') ∧
      c'.stale = c.stale ∧
      r.code = v.code ∧ r.body = v.body ∧ r.headers = v.headers ∧
      (r.stale = true ↔ ∃ t, staleLookup c.stale key = some t ∧
        (NewResourceBytes v.code v.body v.headers).DateAfter t = false) := by
  simp only [evLookup] at hv
  obtain ⟨e, hfind, he2⟩ := Option.map_eq_some'.1 hv
  have he21 : e.2.1 = v := congrArg Prod.fst he2
  refine ⟨applyStale c.stale key (NewResourceBytes v.code v.body v.headers),
    ⟨{ c.cache with entries := e :: c.cache.entries.filter (fun x => x.1 != key) }, c.stale⟩,
    ?_, rfl, ?_, ?_, ?_, ?_⟩
  · rw [retrieve_of_findEntry_some _ _ _ hfind, he21]
  · rw [applyStale_code]
    rfl
  · rw [applyStale_body]
    rfl
  · rw [applyStale_headers]
    rfl
  · exact applyStale_stale_iff c.stale key _ rfl

/-- C5 witness: at the concrete stale cache `c3Cache`. -/
theorem retrieve_stale_iff_witness :
    ∃ r c', c3Cache.Retrieve "k" = .ok (r, c') ∧
      c'.stale = c3Cache.stale ∧
      r.code = c3Obj.code ∧ r.body = c3Obj.body ∧ r.headers = c3Obj.headers ∧
      (r.stale = true ↔ ∃ t, staleLookup c3Cache.stale "k" = some t ∧
        (NewResourceBytes c3Obj.code c3Obj.body c3Obj.headers).DateAfter t = false) :=
  retrieve_stale_iff c3Cache "k" c3Obj 2 rfl

/-- C6: a successful (full-body-read) Store removes every stored key from
the Stale Overlay, and overlay keys are removed only by Store: Retrieve and
Header leave the overlay untouched, and Invalidate and Freshen never remove
a present key. -/
theorem stale_overlay_removed_only_by_store :
    (∀ (c : lruCache) (r : InResource) (bs : List Nat) (ks : List String) (c' : lruCache),
      readFullBody r = .ok bs → lruCache.Store c r ks = .ok (none, c') →
      ∀ k ∈ ks, staleLookup c'.stale k = none)
    ∧ (∀ (c : lruCache) (key : String) (res : Resource) (c' : lruCache),
      c.Retrieve key = .ok (res, c') → c'.stale = c.stale)
    ∧ (∀ (c : lruCache) (key : String), ((c.Header key).2).stale = c.stale)
    ∧ (∀ (c : lruCache) (ks : List String) (now : Int) (c' : lruCache),
      lruCache.Invalidate c ks now = .ok c' →
      ∀ k, (staleLookup c.stale k).isSome = true → (staleLookup c'.stale k).isSome = true)
    ∧ (∀ (c : lruCache) (res : InResource) (now : Int) (ks : List String) (e : Option String)
        (c' : lruCache), lruCache.Freshen c res now ks = .ok (e, c') →
      ∀ k, (staleLookup c.stale k).isSome = true → (staleLookup c'.stale k).isSome = true) := by
  refine ⟨?_, retrieve_snd_stale, header_snd_stale, ?_, ?_⟩
  · intro c r bs ks c' hread hstore k hk
    rw [store_of_readFullBody_ok c r ks bs hread] at hstore
    injection hstore with hstore
    have hc' : storeLoop ⟨bs, r.headers, r.statusCode⟩ c ks = c' := congrArg Prod.snd hstore
    subst hc'
    exact storeLoop_stale _ k ks c hk
  · intro c ks now c' h
    exact invalidate_stale_isSome ks c now c' h
  · intro c res now ks e c' h
    exact freshen_stale_isSome ks c res now e c' h

/-- C6 witness: after the concrete store, the overlay entry for the stored
key is gone. -/
theorem stale_overlay_removed_only_by_store_witness :
    staleLookup cW4res.stale "x" = none :=
  stale_overlay_removed_only_by_store.1 cW4 rW4 [7, 8] ["x"] cW4res rfl rfl "x" (by simp)

/-- C7: when the cached status code and header set equal the candidate's,
Freshen replaces only that entry's headers and status: the stored body is
byte-identical and the entry is re-inserted with weight equal to the length
of that unchanged body. -/
theorem freshen_match_preserves_body (c : lruCache) (res : InResource) (now : Int) (k : String)
    (v : CacheObj) (w : Nat)
    (hv : evLookup c.cache k = some (v, w))
    (hcode : v.code = res.statusCode)
    (hh : headersEqual v.headers res.headers = true)
    (hcap : v.body.length ≤ c.cache.capacity) :
    ∃ c2, lruCache.Freshen c res now [k] = .ok (none, c2) ∧
      evLookup c2.cache k = some (⟨v.body, res.headers, v.code⟩, v.body.length) := by
  have hv0 := hv
  simp only [evLookup] at hv0
  obtain ⟨e, hfind, he2⟩ := Option.map_eq_some'.1 hv0
  have he21 : e.2.1 = v := congrArg Prod.fst he2
  have hc : (e.2.1.code == res.statusCode && headersEqual e.2.1.headers res.headers) = true := by
    rw [he21, hcode, hh]
    simp
  obtain ⟨c2, heq, hstale, hcapeq, hlookf⟩ := freshen_cons_of_match c res now k [] e hfind hc
  refine ⟨c2, ?_, ?_⟩
  · rw [heq]
    rfl
  · have h0 := hlookf (by rw [he21]; exact hcap)
    rw [he21] at h0
    exact h0

/-- C7 witness: at the concrete matching Freshen. -/
theorem freshen_match_preserves_body_witness :
    ∃ c2, lruCache.Freshen c3Cache c3Res 20 ["k"] = .ok (none, c2) ∧
      evLookup c2.cache "k" = some (⟨c3Obj.body, c3Res.headers, c3Obj.code⟩,
        c3Obj.body.length) :=
  freshen_match_preserves_body c3Cache c3Res 20 "k" c3Obj 2 rfl rfl rfl (by decide)

/-- C8: Header is independent of the Stale Overlay: two caches with equal
eviction stores and arbitrary overlays give the same Header result (value,
status and error alike). -/
theorem header_independent_of_overlay (ca cb : lruCache) (k : String)
    (h : ca.cache = cb.cache) : (ca.Header k).1 = (cb.Header k).1 := by
  cases hf : ca.cache.findEntry k with
  | none => rw [header_of_findEntry_none _ _ hf, header_of_findEntry_none _ _ (h ▸ hf)]
  | some e => rw [header_of_findEntry_some _ _ _ hf, header_of_findEntry_some _ _ _ (h ▸ hf)]

/-- C8 witness: same eviction store, one overlay marking the key and one nil
overlay, with equal Header results. -/
theorem header_independent_of_overlay_witness :
    (c3Cache.Header "k").1 = (c8Cache.Header "k").1 :=
  header_independent_of_overlay c3Cache c8Cache "k" rfl

/-- C9: Freshen returns an error exactly when an `updateHeader` call made
during its run fails.  In this sequential model a key whose Header was just
fetched is still present, so `updateHeader` never fails inside Freshen and
both sides of the equivalence are false for every input: absent keys and
header mismatches are non-error outcomes. -/
theorem freshen_error_iff_updateHeader_failure (c : lruCache) (res : InResource) (now : Int)
    (ks : List String) :
    (∃ e c', lruCache.Freshen c res now ks = .ok (some e, c')) ↔
      freshenUHFails c res now ks = true := by
  constructor
  · rintro ⟨e, c', h⟩
    exact absurd h (freshen_no_error ks c res now e c')
  · intro h
    rw [freshenUHFails_false] at h
    cases h

/-- C10: Store is atomic on failure: when it returns a non-nil error, the
cache (eviction store and stale overlay alike) is exactly as before the
call. -/
theorem store_error_state_unchanged (c : lruCache) (r : InResource) (ks : List String)
    (e : String) (c' : lruCache)
    (h : lruCache.Store c r ks = .ok (some e, c')) : c' = c := by
  cases hr : readFullBody r with
  | ok bs =>
    rw [store_of_readFullBody_ok c r ks bs hr] at h
    simp at h
  | fail e0 =>
    simp only [lruCache.Store, hr] at h
    injection h with h
    exact (congrArg Prod.snd h).symm
  | shortRead =>
    simp only [lruCache.Store, hr] at h
    injection h with h
    exact absurd (congrArg Prod.fst h) (by simp)
  | lenPanic =>
    simp only [lruCache.Store, hr] at h
    cases h

/-- C10 witness: a failing read leaves the concrete cache unchanged. -/
theorem store_error_state_unchanged_witness : c1Cache = c1Cache :=
  store_error_state_unchanged c1Cache rFail ["x"] "read failed" c1Cache rfl
